import Mathlib

/-!
Shallow embedding of the pyzor configuration module (pyzor/config.py) and of
the digest-record codec and eviction sweep of the gdbm digest store, together
with proofs of the specified properties.

Python strings are modelled as lists of characters (PyStr); Python's
str.strip, str.lower and str.split are modelled by explicit functions on
character lists; Python dictionaries are modelled as insertion-ordered
association lists.
-/

/-- Python strings, modelled as lists of characters. -/
abbrev PyStr := List Char

/-- Modelled from Python: the whitespace characters recognised by str.strip
and str.split. -/
def isWs (c : Char) : Bool :=
  c = ' ' || c = '\t' || c = '\n' || c = '\r' || c = '\x0b' || c = '\x0c'

/-- Modelled from Python: str.strip with no argument. -/
def pyTrim (l : PyStr) : PyStr :=
  ((l.dropWhile isWs).reverse.dropWhile isWs).reverse

/-- Modelled from Python: str.lower, restricted to the ASCII range used by
the configuration files. -/
def pyLower (l : PyStr) : PyStr :=
  l.map Char.toLower

/-- Core of separator splitting: the first field and the remaining fields. -/
def splitByCore (p : Char → Bool) : PyStr → PyStr × List PyStr
  | [] => ([], [])
  | c :: rest =>
    let r := splitByCore p rest
    if p c then ([], r.1 :: r.2) else (c :: r.1, r.2)

/-- Split at every character satisfying p, keeping empty fields. -/
def splitBy (p : Char → Bool) (l : PyStr) : List PyStr :=
  (splitByCore p l).1 :: (splitByCore p l).2

/-- Modelled from Python: str.split(sep) for a one-character separator. -/
def splitOnChar (sep : Char) (l : PyStr) : List PyStr :=
  splitBy (fun c => c = sep) l

/-- Modelled from Python: str.split() with no argument (split on whitespace
runs, dropping empty fields). -/
def pySplitWs (l : PyStr) : List PyStr :=
  (splitBy isWs l).filter (fun s => !s.isEmpty)

/-- Join fields with a one-character separator (inverse of splitOnChar). -/
def joinSep (sep : Char) : List PyStr → PyStr
  | [] => []
  | [x] => x
  | x :: y :: rest => x ++ sep :: joinSep sep (y :: rest)

/-- Python dict assignment d[k] = v on an insertion-ordered association
list: replaces the value in place when the key is present, else appends. -/
def dictInsert {α β : Type} [DecidableEq α] (m : List (α × β)) (k : α) (v : β) :
    List (α × β) :=
  match m with
  | [] => [(k, v)]
  | kv :: rest => if kv.1 = k then (k, v) :: rest else kv :: dictInsert rest k v

/-- Python dict lookup d.get(k). -/
def dictGet {α β : Type} [DecidableEq α] (m : List (α × β)) (k : α) : Option β :=
  match m with
  | [] => none
  | kv :: rest => if kv.1 = k then some kv.2 else dictGet rest k

/-- The command token "check". -/
def sCheck : PyStr := "check".data

/-- The command token "report". -/
def sReport : PyStr := "report".data

/-- The command token "ping". -/
def sPing : PyStr := "ping".data

/-- The command token "pong". -/
def sPong : PyStr := "pong".data

/-- The command token "info". -/
def sInfo : PyStr := "info".data

/-- The command token "whitelist". -/
def sWhitelist : PyStr := "whitelist".data

/-- The keyword "all". -/
def sAll : PyStr := "all".data

/-- The keyword "allow". -/
def sAllow : PyStr := "allow".data

/-- The keyword "deny". -/
def sDeny : PyStr := "deny".data

/-- Modelled from the spec: pyzor.anonymous_user (defined outside src/), the
special username designating unauthenticated callers. -/
def anonymous_user : PyStr := "anonymous".data

/-- The fixed command vocabulary that the keyword "all" expands to in the
operations field of load_access_file. -/
def commandVocab : List PyStr :=
  [sCheck, sReport, sPing, sPong, sInfo, sWhitelist]

/-- A compiled ACL: each username maps to its set of permitted commands; a
username outside the mapping has the empty set (the defaultdict(set)). -/
abbrev ACL := PyStr → Finset PyStr

/-- Modelled from the spec: query(acl, username, command) - whether the
command is in the user's permitted set. -/
def query (acl : ACL) (u c : PyStr) : Bool :=
  decide (c ∈ acl u)

/-- A compiled ACL rule of load_access_file: operation tokens, user tokens
and the allow/deny flag. -/
structure Rule where
  ops : List PyStr
  users : List PyStr
  allowed : Bool
deriving DecidableEq

/-- One user's update for one rule: acl[user].update(operations) for an
allow rule, acl[user].difference_update(operations) for a deny rule. -/
def updUser (b : Bool) (ops : Finset PyStr) (acl : ACL) (u : PyStr) : ACL :=
  fun v => if v = u then (if b then acl u ∪ ops else acl u \ ops) else acl v

/-- Apply one compiled rule to the ACL (the inner for-loop of
load_access_file). -/
def applyRule (acl : ACL) (r : Rule) : ACL :=
  r.users.foldl (updUser r.allowed r.ops.toFinset) acl

/-- The line format check of load_access_file: skip blank and comment lines,
split on ":" into exactly three fields, lower-case and strip each field. -/
def parseFields (line : PyStr) : Option (PyStr × PyStr × PyStr) :=
  if pyTrim line = [] then none
  else if line.head? = some '#' then none
  else
    match (splitOnChar ':' line).map (fun p => pyTrim (pyLower p)) with
    | [a, b, c] => some (a, b, c)
    | _ => none

/-- The allow/deny vocabulary of load_access_file. -/
def pyAllowed (s : PyStr) : Option Bool :=
  if s = sAllow then some true else if s = sDeny then some false else none

/-- Field interpretation of load_access_file: allow/deny lookup and expansion
of the keyword "all" in the operations and users fields; accounts is the
list of usernames known to the server. -/
def compileRule (accounts : List PyStr) (fs : PyStr × PyStr × PyStr) :
    Option Rule :=
  match pyAllowed fs.2.2 with
  | none => none
  | some b =>
    some { ops := if fs.1 = sAll then commandVocab
                  else (pySplitWs fs.1).map pyTrim,
           users := if fs.2.1 = sAll then accounts
                    else (pySplitWs fs.2.1).map pyTrim,
           allowed := b }

/-- Processing of one line of the access file. -/
def processAclLine (accounts : List PyStr) (acl : ACL) (line : PyStr) : ACL :=
  match parseFields line with
  | none => acl
  | some fs =>
    match compileRule accounts fs with
    | none => acl
    | some r => applyRule acl r

/-- The permissions granted to the anonymous user by the default ACL. -/
def defaultAnonPerms : Finset PyStr :=
  {sCheck, sReport, sPing, sPong, sInfo}

/-- Embedding of load_access_file: the file is an optional list of lines
(none models a non-existent file); accounts is the list of usernames known
to the server (the keys of the accounts mapping). -/
def load_access_file (source : Option (List PyStr)) (accounts : List PyStr) :
    ACL :=
  match source with
  | none => fun u => if u = anonymous_user then defaultAnonPerms else ∅
  | some lines => lines.foldl (processAclLine accounts) (fun _ => ∅)

/-- The line format check of load_passwd_file: skip blank and comment lines,
split on ":" into exactly two fields, strip each field. -/
def parsePasswdLine (line : PyStr) : Option (PyStr × PyStr) :=
  if pyTrim line = [] then none
  else if line.head? = some '#' then none
  else
    match splitOnChar ':' line with
    | [u, k] => some (pyTrim u, pyTrim k)
    | _ => none

/-- Processing of one line of the server accounts file. -/
def passwdStep (m : List (PyStr × PyStr)) (line : PyStr) : List (PyStr × PyStr) :=
  match parsePasswdLine line with
  | none => m
  | some p => dictInsert m p.1 p.2

/-- Embedding of load_passwd_file: the file is an optional list of lines
(none models a non-existent file). -/
def load_passwd_file (source : Option (List PyStr)) : List (PyStr × PyStr) :=
  match source with
  | none => []
  | some lines => lines.foldl passwdStep []

/-- Modelled from the spec: the Record of the digest store (the engines
module is not under src/); the two counts and the four timestamps are
natural numbers, timestamps abstracted as seconds since the epoch. The
field order follows the Record constructor as exercised by the tests. -/
structure Record where
  r_count : Nat
  wl_count : Nat
  r_entered : Nat
  r_updated : Nat
  wl_entered : Nat
  wl_updated : Nat
deriving DecidableEq

/-- Little-endian decimal digits with explicit fuel, so that the function
evaluates by kernel reduction. -/
def natDigitsAux : Nat → Nat → List Nat
  | 0, _ => []
  | fuel + 1, n => if n = 0 then [] else n % 10 :: natDigitsAux fuel (n / 10)

/-- Little-endian decimal digits of a natural number (agrees with
Nat.digits 10). -/
def natDigits (n : Nat) : List Nat :=
  natDigitsAux n n

/-- Decimal rendering of a natural number (Python str(n) for n >= 0). -/
def natChars (n : Nat) : PyStr :=
  if n = 0 then ['0'] else ((natDigits n).map Nat.digitChar).reverse

/-- The numeric value of a decimal digit character. -/
def digitVal (c : Char) : Nat :=
  c.toNat - 48

/-- Parse a non-empty all-digit string as a natural number. -/
def digitsVal? (l : PyStr) : Option Nat :=
  if !l.isEmpty && l.all Char.isDigit then
    some (l.foldl (fun a c => 10 * a + digitVal c) 0)
  else none

/-- Modelled from the spec: RecordCodec.encode - a leading format-version
marker 1 followed by the six count/timestamp fields, comma-separated, in
the fixed order exercised by the gdbm engine tests. -/
def encodeRecord (r : Record) : PyStr :=
  joinSep ',' [['1'], natChars r.r_count, natChars r.r_entered,
    natChars r.r_updated, natChars r.wl_count, natChars r.wl_entered,
    natChars r.wl_updated]

/-- Modelled from the spec: RecordCodec.decode - inverse of encode; fails on
an unrecognised version marker, a wrong field count, or a field that does
not parse. -/
def decodeRecord (s : PyStr) : Option Record :=
  match splitOnChar ',' s with
  | [v, f1, f2, f3, f4, f5, f6] =>
    if v = ['1'] then
      match digitsVal? f1, digitsVal? f2, digitsVal? f3, digitsVal? f4,
            digitsVal? f5, digitsVal? f6 with
      | some rc, some re, some ru, some wc, some we, some wu =>
        some { r_count := rc, wl_count := wc, r_entered := re,
               r_updated := ru, wl_entered := we, wl_updated := wu }
      | _, _, _, _, _, _ => none
    else none
  | _ => none

/-- Modelled from the spec: the per-entry decision of the eviction sweep -
a stored value is kept unless its decoded record satisfies
now - max(reportUpdated, whitelistUpdated) > maxAge; an undecodable value
is skipped (kept). -/
def sweepKeep (now maxAge : Nat) (v : PyStr) : Bool :=
  match decodeRecord v with
  | some r => !decide (maxAge < now - max r.r_updated r.wl_updated)
  | none => true

/-- Modelled from the spec: one full pass of the eviction sweep
(startReorganizing) over the backend, given as an association list from
digest keys to raw stored values: a key whose decoded record is older than
maxAge is deleted; every other entry is kept unchanged. -/
def sweepOnce (now maxAge : Nat) (db : List (PyStr × PyStr)) :
    List (PyStr × PyStr) :=
  db.filter fun kv => sweepKeep now maxAge kv.2

/-- Modelled from the spec: the client Account (pyzor/account.py is not
under src/): a username together with the salt and key material; since the
spec leaves the construction-failure condition abstract, construction is
modelled as always succeeding. -/
structure Account where
  username : PyStr
  salt : PyStr
  key : PyStr
deriving DecidableEq

/-- The port component of a client accounts key: an integer when int(port)
succeeds, otherwise the original string (the code rebinds port only on a
successful parse). -/
inductive PortV
  | num (n : Int)
  | str (s : PyStr)
deriving DecidableEq

/-- Modelled from Python: int(s) on an already-stripped string - an optional
sign followed by a non-empty run of decimal digits. -/
def pyInt? (l : PyStr) : Option Int :=
  match l with
  | '-' :: rest => (digitsVal? rest).map (fun n => -(n : Int))
  | '+' :: rest => (digitsVal? rest).map (fun n => (n : Int))
  | _ => (digitsVal? l).map (fun n => (n : Int))

/-- Modelled from the spec: pyzor.account.key_from_hexstr (not under src/) -
splits the key material on "," into the (salt, key) pair; any other shape
yields the completely-empty pair, which the caller rejects. -/
def key_from_hexstr (s : PyStr) : PyStr × PyStr :=
  match splitOnChar ',' s with
  | [a, b] => (a, b)
  | _ => ([], [])

/-- Processing of one line of the client accounts file. Faithful to the
source: a port that fails int() is only logged, the line is not skipped,
so the entry is still inserted under the unparsed string port. -/
def processAccountLine (m : List ((PyStr × PortV) × Account))
    (origLine : PyStr) : List ((PyStr × PortV) × Account) :=
  let line := pyTrim origLine
  if line.isEmpty then m
  else if line.head? = some '#' then m
  else
    match (splitOnChar ':' line).map pyTrim with
    | [host, port, username, keyhex] =>
      let portv := match pyInt? port with
        | some n => PortV.num n
        | none => PortV.str port
      let sk := key_from_hexstr keyhex
      if sk.1 = [] ∧ sk.2 = [] then m
      else dictInsert m (host, portv)
        { username := username, salt := sk.1, key := sk.2 }
    | _ => m

/-- Embedding of load_accounts (client accounts): the file is an optional
list of lines (none models a non-existent file). -/
def load_accounts (source : Option (List PyStr)) :
    List ((PyStr × PortV) × Account) :=
  match source with
  | none => []
  | some lines => lines.foldl processAccountLine []

/-- The username "bob". -/
def sBob : PyStr := "bob".data

/-- The username "Bob", with an upper-case letter. -/
def sBobUp : PyStr := "Bob".data

/-- The username "alice". -/
def sAlice : PyStr := "alice".data

/-- The token "frobnicate", outside the command vocabulary. -/
def sFrob : PyStr := "frobnicate".data

/-- An access file line granting every command to bob. -/
def lnAllBobAllow : PyStr := "all : bob : allow".data

/-- An access file line revoking report from bob. -/
def lnReportBobDeny : PyStr := "report : bob : deny".data

/-- An access file line granting an out-of-vocabulary token to bob. -/
def lnFrobBobAllow : PyStr := "frobnicate : bob : allow".data

/-- An access file line listing the user Bob with an upper-case letter. -/
def lnCheckBobUpAllow : PyStr := "check : Bob : allow".data

/-- A malformed accounts line with a single colon-separated part. -/
def lnOnlyOnePart : PyStr := "onlyonepart".data

/-- A well-formed accounts line. -/
def lnAColonB : PyStr := "a : b".data

/-- A client accounts line whose port field does not parse as an integer. -/
def lnPortBug : PyStr := "example.com : 123x : bob : deadbeef,cafe".data

/-- The host of lnPortBug. -/
def sHostEx : PyStr := "example.com".data

/-- The unparsable port field of lnPortBug. -/
def sBadPort : PyStr := "123x".data

/-- The salt part of lnPortBug's key material. -/
def sDeadbeef : PyStr := "deadbeef".data

/-- The key part of lnPortBug's key material. -/
def sCafe : PyStr := "cafe".data

/-- A string contains an upper-case ASCII letter. -/
def hasUpper (u : PyStr) : Prop :=
  ∃ c ∈ u, 65 ≤ c.toNat ∧ c.toNat ≤ 90

/-- Support lemma: splitByCore over a separator-free prefix. -/
theorem splitByCore_append (p : Char → Bool) (x l : PyStr)
    (hx : ∀ c ∈ x, p c = false) :
    splitByCore p (x ++ l) =
      (x ++ (splitByCore p l).1, (splitByCore p l).2) := by
  induction x with
  | nil => simp
  | cons c rest ih =>
    have hc : p c = false := hx c (List.mem_cons_self c rest)
    have hrest : ∀ d ∈ rest, p d = false :=
      fun d hd => hx d (List.mem_cons_of_mem c hd)
    simp [splitByCore, hc, ih hrest]

/-- Support lemma: splitByCore of a separator-free string. -/
theorem splitByCore_of_no_sep (p : Char → Bool) (x : PyStr)
    (hx : ∀ c ∈ x, p c = false) :
    splitByCore p x = (x, []) := by
  have := splitByCore_append p x [] hx
  simpa [splitByCore] using this

/-- Support lemma: splitOnChar is a left inverse of joinSep on fields that
do not contain the separator. -/
theorem splitOnChar_joinSep (sep : Char) (x : PyStr) (fs : List PyStr)
    (h : ∀ f ∈ x :: fs, sep ∉ f) :
    splitOnChar sep (joinSep sep (x :: fs)) = x :: fs := by
  induction fs generalizing x with
  | nil =>
    have hx : ∀ c ∈ x, (decide (c = sep)) = false := by
      intro c hc
      simp only [decide_eq_false_iff_not]
      intro hcs
      exact h x (List.mem_cons_self x []) (hcs ▸ hc)
    simp [joinSep, splitOnChar, splitBy,
      splitByCore_of_no_sep (fun c => decide (c = sep)) x hx]
  | cons y rest ih =>
    have hx : ∀ c ∈ x, (decide (c = sep)) = false := by
      intro c hc
      simp only [decide_eq_false_iff_not]
      intro hcs
      exact h x (List.mem_cons_self x (y :: rest)) (hcs ▸ hc)
    have hy : ∀ f ∈ y :: rest, sep ∉ f :=
      fun f hf => h f (List.mem_cons_of_mem x hf)
    have hind := ih y hy
    simp only [joinSep, splitOnChar, splitBy] at hind ⊢
    rw [splitByCore_append (fun c => decide (c = sep)) x (sep :: joinSep sep (y :: rest)) hx]
    simp only [splitByCore, decide_True, if_pos]
    simp only [List.cons.injEq] at hind
    simp [hind.1, hind.2]

/-- Support lemma: the fuel-based digit function agrees with Nat.digits. -/
theorem natDigitsAux_eq (fuel : Nat) : ∀ n : Nat, n ≤ fuel →
    natDigitsAux fuel n = Nat.digits 10 n := by
  induction fuel with
  | zero =>
    intro n hn
    interval_cases n
    simp [natDigitsAux]
  | succ fuel ih =>
    intro n hn
    by_cases h0 : n = 0
    · simp [natDigitsAux, h0]
    · have hlt : n / 10 < n := Nat.div_lt_self (Nat.pos_of_ne_zero h0) (by norm_num)
      have hfuel : n / 10 ≤ fuel := by omega
      rw [natDigitsAux, if_neg h0, ih (n / 10) hfuel,
        Nat.digits_def' (by norm_num : 1 < 10) (Nat.pos_of_ne_zero h0)]

/-- Support lemma: natDigits agrees with Nat.digits 10. -/
theorem natDigits_eq (n : Nat) : natDigits n = Nat.digits 10 n :=
  natDigitsAux_eq n n (Nat.le_refl n)

/-- Support lemma: digitVal inverts Nat.digitChar on decimal digits. -/
theorem digitVal_digitChar (d : Nat) (h : d < 10) :
    digitVal (Nat.digitChar d) = d := by
  interval_cases d <;> decide

/-- Support lemma: Nat.digitChar yields digit characters on decimal digits. -/
theorem isDigit_digitChar (d : Nat) (h : d < 10) :
    (Nat.digitChar d).isDigit = true := by
  interval_cases d <;> decide

/-- Support lemma: a digit character is not a comma. -/
theorem digitChar_ne_comma (d : Nat) (h : d < 10) : Nat.digitChar d ≠ ',' := by
  interval_cases d <;> decide

/-- Support lemma: a decimal rendering never contains a comma. -/
theorem comma_not_mem_natChars (n : Nat) : ',' ∉ natChars n := by
  unfold natChars
  by_cases h0 : n = 0
  · simp [h0]
  · simp only [h0, if_false, List.mem_reverse, List.mem_map, natDigits_eq]
    rintro ⟨d, hd, hchar⟩
    exact digitChar_ne_comma d (Nat.digits_lt_base (by norm_num) hd) hchar

/-- Support lemma: folding the parse step over little-endian digits computes
Nat.ofDigits. -/
theorem foldr_digits_ofDigits (ds : List Nat) (h : ∀ d ∈ ds, d < 10) :
    ds.foldr (fun d a => 10 * a + digitVal (Nat.digitChar d)) 0 =
      Nat.ofDigits 10 ds := by
  induction ds with
  | nil => simp [Nat.ofDigits]
  | cons d rest ih =>
    have hd : d < 10 := h d (List.mem_cons_self d rest)
    have hrest : ∀ e ∈ rest, e < 10 :=
      fun e he => h e (List.mem_cons_of_mem d he)
    simp only [List.foldr_cons, ih hrest, Nat.ofDigits_cons,
      digitVal_digitChar d hd]
    ring

/-- Support lemma: parsing inverts the decimal rendering. -/
theorem digitsVal?_natChars (n : Nat) : digitsVal? (natChars n) = some n := by
  by_cases h0 : n = 0
  · subst h0
    decide
  · have hne : Nat.digits 10 n ≠ [] := Nat.digits_ne_nil_iff_ne_zero.mpr h0
    have hlt : ∀ d ∈ Nat.digits 10 n, d < 10 :=
      fun d hd => Nat.digits_lt_base (by norm_num) hd
    have hchars : natChars n = ((Nat.digits 10 n).map Nat.digitChar).reverse := by
      simp [natChars, h0, natDigits_eq]
    rw [digitsVal?, hchars]
    have hempty : (((Nat.digits 10 n).map Nat.digitChar).reverse).isEmpty = false := by
      simp [List.isEmpty_iff, hne]
    have hall : (((Nat.digits 10 n).map Nat.digitChar).reverse).all Char.isDigit = true := by
      simp only [List.all_eq_true, List.mem_reverse, List.mem_map]
      rintro c ⟨d, hd, rfl⟩
      exact isDigit_digitChar d (hlt d hd)
    rw [hempty, hall]
    simp only [Bool.not_false, Bool.and_self, if_pos]
    rw [List.foldl_reverse, List.foldr_map]
    rw [foldr_digits_ofDigits (Nat.digits 10 n) hlt, Nat.ofDigits_digits]

/-- Claim C2: for every valid Record r, decode(encode(r)) = r, where encode
produces the textual value 1,reportCount,reportEntered,reportUpdated,
whitelistCount,whitelistEntered,whitelistUpdated - a leading version marker
1 followed by exactly six comma-separated fields in that fixed order. -/
theorem record_encode_decode_roundtrip (r : Record) :
    splitOnChar ',' (encodeRecord r) =
      [['1'], natChars r.r_count, natChars r.r_entered, natChars r.r_updated,
       natChars r.wl_count, natChars r.wl_entered, natChars r.wl_updated]
    ∧ decodeRecord (encodeRecord r) = some r := by
  obtain ⟨rc, wc, re, ru, we, wu⟩ := r
  have hnc : ∀ f ∈ [['1'], natChars rc, natChars re, natChars ru,
      natChars wc, natChars we, natChars wu], ',' ∉ f := by
    intro f hf
    simp only [List.mem_cons, List.not_mem_nil, or_false] at hf
    rcases hf with rfl | rfl | rfl | rfl | rfl | rfl | rfl
    · decide
    all_goals exact comma_not_mem_natChars _
  have hsplit : splitOnChar ','
      (encodeRecord ⟨rc, wc, re, ru, we, wu⟩) =
      [['1'], natChars rc, natChars re, natChars ru,
       natChars wc, natChars we, natChars wu] :=
    splitOnChar_joinSep ',' ['1'] [natChars rc, natChars re, natChars ru,
      natChars wc, natChars we, natChars wu] hnc
  refine ⟨hsplit, ?_⟩
  unfold decodeRecord
  rw [hsplit]
  simp [digitsVal?_natChars]

/-- Support lemma: membership after folding one rule's per-user updates. -/
theorem mem_foldl_updUser (b : Bool) (ops : Finset PyStr) (us : List PyStr) :
    ∀ (acl : ACL) (u c : PyStr),
    (c ∈ (us.foldl (updUser b ops) acl) u) ↔
      (if u ∈ us then
        (if b then c ∈ acl u ∨ c ∈ ops else c ∈ acl u ∧ c ∉ ops)
       else c ∈ acl u) := by
  induction us with
  | nil => intro acl u c; simp
  | cons v rest ih =>
    intro acl u c
    rw [List.foldl_cons, ih]
    by_cases huv : u = v
    · subst huv
      by_cases hur : u ∈ rest <;>
        cases b <;>
          simp [hur, updUser, Finset.mem_union, Finset.mem_sdiff]
    · by_cases hur : u ∈ rest <;>
        cases b <;>
          simp [hur, huv, updUser, Ne.symm huv]

/-- Support lemma: the effect of one rule on one query. -/
theorem query_applyRule (acl : ACL) (r : Rule) (u c : PyStr) :
    query (applyRule acl r) u c =
      if u ∈ r.users ∧ c ∈ r.ops then r.allowed else query acl u c := by
  unfold query applyRule
  by_cases hu : u ∈ r.users
  · by_cases hc : c ∈ r.ops
    · rw [if_pos ⟨hu, hc⟩]
      cases hb : r.allowed <;>
        simp [mem_foldl_updUser, hu, hb, List.mem_toFinset, hc]
    · rw [if_neg (fun h => hc h.2)]
      cases hb : r.allowed <;>
        simp [mem_foldl_updUser, hu, hb, List.mem_toFinset, hc]
  · rw [if_neg (fun h => hu h.1)]
    simp [mem_foldl_updUser, hu]

/-- Support lemma: folding per-user updates leaves unlisted users untouched. -/
theorem foldl_updUser_not_mem (b : Bool) (ops : Finset PyStr)
    (us : List PyStr) : ∀ (acl : ACL) (u : PyStr), u ∉ us →
    (us.foldl (updUser b ops) acl) u = acl u := by
  induction us with
  | nil => intro acl u _; rfl
  | cons v rest ih =>
    intro acl u h
    have huv : u ≠ v := fun he => h (he ▸ List.mem_cons_self v rest)
    rw [List.foldl_cons, ih _ u (fun hm => h (List.mem_cons_of_mem v hm))]
    simp [updUser, huv]

/-- Support lemma: a rule leaves users it does not list untouched. -/
theorem applyRule_not_mem (acl : ACL) (r : Rule) (u : PyStr)
    (h : u ∉ r.users) : applyRule acl r u = acl u :=
  foldl_updUser_not_mem r.allowed r.ops.toFinset r.users acl u h

/-- Claim C1: ACL rule application is an ordered fold - allow unions, deny
subtracts, and for any (user, command) pair the decision is that of the
last rule mentioning the pair (a later line always overrides an earlier
one); in particular for the rules [(all,bob,allow), (report,bob,deny)]
loaded by load_access_file, query(acl, bob, report) is false and
query(acl, bob, check) is true. -/
theorem acl_fold_later_line_overrides :
    (∀ (rs : List Rule) (acl : ACL) (u c : PyStr),
      query (rs.foldl applyRule acl) u c =
        (((rs.reverse.find? (fun r => decide (u ∈ r.users) &&
            decide (c ∈ r.ops))).map Rule.allowed).getD (query acl u c)))
    ∧ query (load_access_file (some [lnAllBobAllow, lnReportBobDeny]) [])
        sBob sReport = false
    ∧ query (load_access_file (some [lnAllBobAllow, lnReportBobDeny]) [])
        sBob sCheck = true := by
  refine ⟨?_, by decide, by decide⟩
  intro rs
  induction rs using List.reverseRecOn with
  | nil => intro acl u c; simp
  | append_singleton rs r ih =>
    intro acl u c
    rw [List.foldl_append, List.foldl_cons, List.foldl_nil, query_applyRule,
      List.reverse_append]
    by_cases hp : u ∈ r.users ∧ c ∈ r.ops
    · rw [if_pos hp]
      have hpb : (decide (u ∈ r.users) && decide (c ∈ r.ops)) = true := by
        simp [hp.1, hp.2]
      simp [List.find?, hpb]
    · rw [if_neg hp, ih]
      have hpb : (decide (u ∈ r.users) && decide (c ∈ r.ops)) = false := by
        by_cases hu : u ∈ r.users
        · have hc : c ∉ r.ops := fun hc => hp ⟨hu, hc⟩
          simp [hu, hc]
        · simp [hu]
      simp [List.find?, hpb]

/-- Support lemma: characters of splitByCore fields come from the input and
never satisfy the separator predicate. -/
theorem splitByCore_chars (p : Char → Bool) : ∀ l : PyStr,
    (∀ c ∈ (splitByCore p l).1, c ∈ l ∧ p c = false)
    ∧ (∀ t ∈ (splitByCore p l).2, ∀ c ∈ t, c ∈ l ∧ p c = false) := by
  intro l
  induction l with
  | nil => simp [splitByCore]
  | cons a rest ih =>
    by_cases hpa : p a
    · simp only [splitByCore, hpa, if_pos]
      constructor
      · intro c hc
        exact absurd hc (List.not_mem_nil c)
      · intro t ht c hc
        rcases List.mem_cons.mp ht with rfl | ht2
        · exact ⟨List.mem_cons_of_mem a (ih.1 c hc).1, (ih.1 c hc).2⟩
        · exact ⟨List.mem_cons_of_mem a (ih.2 t ht2 c hc).1,
            (ih.2 t ht2 c hc).2⟩
    · simp only [splitByCore, hpa, if_neg, Bool.false_eq_true,
        not_false_iff]
      constructor
      · intro c hc
        rcases List.mem_cons.mp hc with rfl | hc2
        · exact ⟨List.mem_cons_self c rest, by simpa using hpa⟩
        · exact ⟨List.mem_cons_of_mem a (ih.1 c hc2).1, (ih.1 c hc2).2⟩
      · intro t ht c hc
        exact ⟨List.mem_cons_of_mem a (ih.2 t ht c hc).1,
          (ih.2 t ht c hc).2⟩

/-- Support lemma: characters of splitBy fields come from the input and
never satisfy the separator predicate. -/
theorem splitBy_chars (p : Char → Bool) (l t : PyStr) (ht : t ∈ splitBy p l) :
    ∀ c ∈ t, c ∈ l ∧ p c = false := by
  intro c hc
  rcases List.mem_cons.mp ht with rfl | ht2
  · exact (splitByCore_chars p l).1 c hc
  · exact (splitByCore_chars p l).2 t ht2 c hc

/-- Support lemma: dropWhile is the identity when no character matches. -/
theorem dropWhile_eq_self_of (p : Char → Bool) (l : PyStr)
    (h : ∀ c ∈ l, p c = false) : l.dropWhile p = l := by
  cases l with
  | nil => rfl
  | cons a rest =>
    rw [List.dropWhile_cons, if_neg]
    rw [h a (List.mem_cons_self a rest)]
    simp

/-- Support lemma: strip is the identity on whitespace-free strings. -/
theorem pyTrim_eq_self (l : PyStr) (h : ∀ c ∈ l, isWs c = false) :
    pyTrim l = l := by
  unfold pyTrim
  rw [dropWhile_eq_self_of isWs l h,
    dropWhile_eq_self_of isWs l.reverse
      (fun c hc => h c (List.mem_reverse.mp hc)),
    List.reverse_reverse]

/-- Support lemma: the strip applied to each whitespace-split token is the
identity. -/
theorem map_pyTrim_pySplitWs (s : PyStr) :
    (pySplitWs s).map pyTrim = pySplitWs s := by
  conv_rhs => rw [← List.map_id (pySplitWs s)]
  apply List.map_congr_left
  intro t ht
  apply pyTrim_eq_self
  intro c hc
  exact (splitBy_chars isWs s t (List.mem_filter.mp ht).1 c hc).2

/-- Claim C5: if the rules file does not exist, load_access_file returns the
default ACL in which the anonymous user is permitted exactly check, report,
ping, pong and info - so query is true for anonymous on report, false for
anonymous on whitelist, and false for every other user on every command. -/
theorem acl_default_file_absent :
    (∀ accounts : List PyStr,
       load_access_file none accounts anonymous_user = defaultAnonPerms)
    ∧ (∀ accounts : List PyStr,
       query (load_access_file none accounts) anonymous_user sReport = true)
    ∧ (∀ accounts : List PyStr,
       query (load_access_file none accounts) anonymous_user sWhitelist = false)
    ∧ (∀ (accounts : List PyStr) (u : PyStr), u ≠ anonymous_user →
       ∀ c : PyStr, query (load_access_file none accounts) u c = false) := by
  refine ⟨fun accounts => ?_, fun accounts => ?_, fun accounts => ?_,
    fun accounts u hu c => ?_⟩
  · simp [load_access_file]
  · rfl
  · rfl
  · simp [load_access_file, query, hu]

/-- Witness for Claim C5 at a concrete non-anonymous user. -/
theorem acl_default_file_absent_witness :
    query (load_access_file none []) sBob sCheck = false :=
  acl_default_file_absent.2.2.2 [] sBob (by decide) sCheck

/-- Claim C4: in load_access_file, a users field equal to the literal all
expands to exactly the usernames of the known-accounts mapping and no
others; the anonymous user is not implicitly included - a rule whose users
field is all leaves anonymous untouched whenever anonymous is not a key of
the accounts mapping. -/
theorem acl_all_keyword_users (accounts : List PyStr)
    (fs : PyStr × PyStr × PyStr) (r : Rule)
    (hcr : compileRule accounts fs = some r) (hall : fs.2.1 = sAll) :
    r.users = accounts
    ∧ (anonymous_user ∉ accounts →
       ∀ acl : ACL, applyRule acl r anonymous_user = acl anonymous_user) := by
  unfold compileRule at hcr
  cases hb : pyAllowed fs.2.2 with
  | none => rw [hb] at hcr; exact absurd hcr (by simp)
  | some b =>
    rw [hb] at hcr
    simp only [Option.some.injEq] at hcr
    have husers : r.users = accounts := by
      rw [← hcr]
      simp [hall]
    refine ⟨husers, fun hanon acl => ?_⟩
    exact applyRule_not_mem acl r anonymous_user (husers ▸ hanon)

/-- Witness for Claim C4 at a concrete rule over the account list [alice]. -/
theorem acl_all_keyword_users_witness :
    (Rule.mk [sCheck] [sAlice] true).users = [sAlice]
    ∧ applyRule (fun _ => ∅) (Rule.mk [sCheck] [sAlice] true) anonymous_user
      = (fun _ : PyStr => (∅ : Finset PyStr)) anonymous_user := by
  have h := acl_all_keyword_users [sAlice] (sCheck, sAll, sAllow)
    (Rule.mk [sCheck] [sAlice] true) (by decide) rfl
  exact ⟨h.1, h.2 (by decide) (fun _ => ∅)⟩

/-- Claim C8: load_access_file does not validate operation tokens - when the
operations field is not the literal all, the compiled rule carries each
whitespace-separated token verbatim, so the ACL can contain permission
names outside the command vocabulary, as the frobnicate example shows. -/
theorem acl_ops_not_validated :
    (∀ (accounts : List PyStr) (fs : PyStr × PyStr × PyStr) (r : Rule),
       compileRule accounts fs = some r → fs.1 ≠ sAll →
       r.ops = pySplitWs fs.1)
    ∧ query (load_access_file (some [lnFrobBobAllow]) []) sBob sFrob = true
    ∧ sFrob ∉ commandVocab := by
  refine ⟨?_, by decide, by decide⟩
  intro accounts fs r hcr hne
  unfold compileRule at hcr
  cases hb : pyAllowed fs.2.2 with
  | none => rw [hb] at hcr; exact absurd hcr (by simp)
  | some b =>
    rw [hb] at hcr
    simp only [Option.some.injEq] at hcr
    rw [← hcr]
    simp [hne, map_pyTrim_pySplitWs]

/-- Witness for Claim C8 at a concrete out-of-vocabulary rule. -/
theorem acl_ops_not_validated_witness :
    (Rule.mk [sFrob] [sBob] true).ops = pySplitWs sFrob :=
  acl_ops_not_validated.1 [] (sFrob, sBob, sAllow)
    (Rule.mk [sFrob] [sBob] true) (by decide) (by decide)

/-- Claim C7: load_passwd_file skips every line that does not split into
exactly two colon-separated parts (such as onlyonepart) - it contributes
no entry while all other lines still load - and an absent accounts file
yields the empty mapping. -/
theorem passwd_malformed_line_skipped :
    (∀ (pre post : List PyStr) (bad : PyStr), parsePasswdLine bad = none →
       load_passwd_file (some (pre ++ bad :: post)) =
         load_passwd_file (some (pre ++ post)))
    ∧ parsePasswdLine lnOnlyOnePart = none
    ∧ load_passwd_file none = [] := by
  refine ⟨?_, by decide, rfl⟩
  intro pre post bad hbad
  simp only [load_passwd_file]
  rw [List.foldl_append, List.foldl_cons]
  have hstep : passwdStep (List.foldl passwdStep [] pre) bad =
      List.foldl passwdStep [] pre := by
    unfold passwdStep
    rw [hbad]
  rw [hstep, ← List.foldl_append]

/-- Witness for Claim C7: the malformed line contributes nothing while the
well-formed line still loads. -/
theorem passwd_malformed_line_skipped_witness :
    load_passwd_file (some ([] ++ lnOnlyOnePart :: [lnAColonB])) =
      load_passwd_file (some ([] ++ [lnAColonB])) :=
  passwd_malformed_line_skipped.1 [] [lnAColonB] lnOnlyOnePart (by decide)

/-- Support lemma: looking up the inserted key yields the inserted value. -/
theorem dictGet_dictInsert_self {α β : Type} [DecidableEq α]
    (m : List (α × β)) (k : α) (v : β) :
    dictGet (dictInsert m k v) k = some v := by
  induction m with
  | nil => simp [dictInsert, dictGet]
  | cons kv rest ih =>
    by_cases h : kv.1 = k
    · simp [dictInsert, h, dictGet]
    · simp [dictInsert, h, dictGet, ih]

/-- Support lemma: inserting one key does not affect lookups of another. -/
theorem dictGet_dictInsert_ne {α β : Type} [DecidableEq α]
    (m : List (α × β)) (k k2 : α) (v : β) (h : k2 ≠ k) :
    dictGet (dictInsert m k v) k2 = dictGet m k2 := by
  induction m with
  | nil => simp [dictInsert, dictGet, Ne.symm h]
  | cons kv rest ih =>
    by_cases hk : kv.1 = k
    · simp [dictInsert, hk, dictGet, Ne.symm h]
    · simp only [dictInsert, hk, if_false, dictGet]
      by_cases hk2 : kv.1 = k2
      · simp [hk2]
      · simp [hk2, ih]

/-- Support lemma: keys after an insert come from the inserted key or the
original keys. -/
theorem mem_keys_dictInsert {α β : Type} [DecidableEq α]
    (m : List (α × β)) (k a : α) (v : β)
    (h : a ∈ (dictInsert m k v).map Prod.fst) :
    a = k ∨ a ∈ m.map Prod.fst := by
  induction m with
  | nil =>
    simp [dictInsert] at h
    exact Or.inl h
  | cons kv rest ih =>
    by_cases hk : kv.1 = k
    · simp only [dictInsert, hk, if_pos, List.map_cons, List.mem_cons] at h
      rcases h with h | h
      · exact Or.inl h
      · exact Or.inr (by simp [h])
    · simp only [dictInsert, hk, if_false, List.map_cons, List.mem_cons] at h
      rcases h with h | h
      · exact Or.inr (by simp [h])
      · rcases ih h with h2 | h2
        · exact Or.inl h2
        · exact Or.inr (by simp [h2])

/-- Support lemma: an insert preserves distinctness of the keys. -/
theorem keys_nodup_dictInsert {α β : Type} [DecidableEq α]
    (m : List (α × β)) (k : α) (v : β)
    (h : (m.map Prod.fst).Nodup) :
    ((dictInsert m k v).map Prod.fst).Nodup := by
  induction m with
  | nil => simp [dictInsert]
  | cons kv rest ih =>
    rw [List.map_cons, List.nodup_cons] at h
    by_cases hk : kv.1 = k
    · simp only [dictInsert, hk, if_pos, List.map_cons, List.nodup_cons]
      exact ⟨hk ▸ h.1, h.2⟩
    · simp only [dictInsert, hk, if_false, List.map_cons, List.nodup_cons]
      refine ⟨?_, ih h.2⟩
      intro hmem
      rcases mem_keys_dictInsert rest k kv.1 v hmem with h2 | h2
      · exact hk h2
      · exact h.1 h2

/-- Support lemma: a lookup after folding the accounts lines returns the
value of the last well-formed line for that user. -/
theorem dictGet_foldl_passwdStep (lines : List PyStr) :
    ∀ (m : List (PyStr × PyStr)) (u : PyStr),
    dictGet (lines.foldl passwdStep m) u =
      (((lines.reverse.findSome? (fun l => (parsePasswdLine l).bind
          (fun p => if p.1 = u then some p.2 else none))).map some).getD
        (dictGet m u)) := by
  induction lines using List.reverseRecOn with
  | nil => intro m u; simp
  | append_singleton rest l ih =>
    intro m u
    rw [List.foldl_append, List.foldl_cons, List.foldl_nil,
      List.reverse_append]
    cases hp : parsePasswdLine l with
    | none =>
      have hstep : passwdStep (List.foldl passwdStep m rest) l =
          List.foldl passwdStep m rest := by
        unfold passwdStep
        rw [hp]
      rw [hstep, ih m u]
      simp [List.findSome?_cons, hp]
    | some p =>
      have hstep : passwdStep (List.foldl passwdStep m rest) l =
          dictInsert (List.foldl passwdStep m rest) p.1 p.2 := by
        unfold passwdStep
        rw [hp]
      rw [hstep]
      by_cases hu : p.1 = u
      · rw [hu, dictGet_dictInsert_self]
        simp [List.findSome?_cons, hp, hu]
      · rw [dictGet_dictInsert_ne _ _ _ _ (fun he => hu he.symm), ih m u]
        simp [List.findSome?_cons, hp, hu]

/-- Claim C9: when the same username appears on multiple well-formed lines
of the server accounts file, load_passwd_file keeps the key of the last
such line (later lines overwrite earlier ones in file order), and the
returned mapping has exactly one entry per username. -/
theorem passwd_duplicate_user_last_wins :
    (∀ (lines : List PyStr) (u : PyStr),
       dictGet (load_passwd_file (some lines)) u =
         lines.reverse.findSome? (fun l => (parsePasswdLine l).bind
           (fun p => if p.1 = u then some p.2 else none)))
    ∧ (∀ lines : List PyStr,
       ((load_passwd_file (some lines)).map Prod.fst).Nodup) := by
  constructor
  · intro lines u
    have h := dictGet_foldl_passwdStep lines [] u
    rw [load_passwd_file, h]
    cases lines.reverse.findSome? (fun l => (parsePasswdLine l).bind
        (fun p => if p.1 = u then some p.2 else none)) with
    | none => rfl
    | some k => rfl
  · intro lines
    have hgen : ∀ m : List (PyStr × PyStr), (m.map Prod.fst).Nodup →
        ((lines.foldl passwdStep m).map Prod.fst).Nodup := by
      induction lines with
      | nil => intro m h; exact h
      | cons l rest ih =>
        intro m h
        rw [List.foldl_cons]
        apply ih
        unfold passwdStep
        cases hp : parsePasswdLine l with
        | none => exact h
        | some p => exact keys_nodup_dictInsert m p.1 p.2 h
    simpa [load_passwd_file] using hgen [] (by simp)

/-- Support lemma: Char.ofNat of a valid scalar value round-trips toNat. -/
theorem toNat_ofNat_of_valid (n : Nat) (h : n.isValidChar) :
    (Char.ofNat n).toNat = n := by
  rw [Char.ofNat, dif_pos h]
  rfl

/-- Support lemma: Char.toLower never returns an upper-case ASCII letter. -/
theorem toLower_not_upper (c : Char) :
    ¬(65 ≤ (Char.toLower c).toNat ∧ (Char.toLower c).toNat ≤ 90) := by
  unfold Char.toLower
  by_cases h : 65 ≤ c.toNat ∧ c.toNat ≤ 90
  · rw [if_pos h]
    rw [toNat_ofNat_of_valid (c.toNat + 32) (Or.inl (by omega))]
    omega
  · rw [if_neg h]
    exact h

/-- Support lemma: a lower-cased string contains no upper-case ASCII
letter. -/
theorem pyLower_no_upper (s : PyStr) : ∀ c ∈ pyLower s,
    ¬(65 ≤ c.toNat ∧ c.toNat ≤ 90) := by
  intro c hc
  rcases List.mem_map.mp hc with ⟨d, _, rfl⟩
  exact toLower_not_upper d

/-- Support lemma: a character of the stripped string is a character of the
original. -/
theorem mem_of_mem_pyTrim (l : PyStr) (c : Char) (hc : c ∈ pyTrim l) :
    c ∈ l := by
  unfold pyTrim at hc
  rw [List.mem_reverse] at hc
  have h1 : c ∈ (l.dropWhile isWs).reverse :=
    (List.dropWhile_sublist isWs).subset hc
  rw [List.mem_reverse] at h1
  exact (List.dropWhile_sublist isWs).subset h1

/-- Support lemma: dropWhile keeps every character that does not satisfy the
predicate. -/
theorem mem_dropWhile_of (p : Char → Bool) (l : PyStr) (c : Char)
    (hc : c ∈ l) (hp : p c = false) : c ∈ l.dropWhile p := by
  induction l with
  | nil => cases hc
  | cons a rest ih =>
    rw [List.dropWhile_cons]
    by_cases hpa : p a
    · rw [if_pos hpa]
      rcases List.mem_cons.mp hc with rfl | h2
      · rw [hp] at hpa
        cases hpa
      · exact ih h2
    · rw [if_neg hpa]
      exact hc

/-- Support lemma: strip keeps every non-whitespace character. -/
theorem mem_pyTrim_of (l : PyStr) (c : Char) (hc : c ∈ l)
    (hp : isWs c = false) : c ∈ pyTrim l := by
  unfold pyTrim
  rw [List.mem_reverse]
  apply mem_dropWhile_of _ _ _ _ hp
  rw [List.mem_reverse]
  exact mem_dropWhile_of _ _ _ hc hp

/-- Support lemma: the users field produced by parseFields contains no
upper-case ASCII letter (the whole line is lower-cased on read). -/
theorem parseFields_no_upper (line : PyStr) (fs : PyStr × PyStr × PyStr)
    (h : parseFields line = some fs) :
    ∀ c ∈ fs.2.1, ¬(65 ≤ c.toNat ∧ c.toNat ≤ 90) := by
  unfold parseFields at h
  by_cases h1 : pyTrim line = []
  · rw [if_pos h1] at h
    cases h
  · rw [if_neg h1] at h
    by_cases h2 : line.head? = some '#'
    · rw [if_pos h2] at h
      cases h
    · rw [if_neg h2] at h
      cases hm : (splitOnChar ':' line).map (fun p => pyTrim (pyLower p)) with
      | nil =>
        rw [hm] at h
        cases h
      | cons a as =>
        cases as with
        | nil =>
          rw [hm] at h
          cases h
        | cons b bs =>
          cases bs with
          | nil =>
            rw [hm] at h
            cases h
          | cons c2 cs =>
            cases cs with
            | cons d ds =>
              rw [hm] at h
              cases h
            | nil =>
              rw [hm] at h
              simp only [Option.some.injEq] at h
              subst h
              have hb : b ∈ (splitOnChar ':' line).map
                  (fun p => pyTrim (pyLower p)) := by
                rw [hm]
                exact List.mem_cons_of_mem a (List.mem_cons_self b _)
              rcases List.mem_map.mp hb with ⟨p, _, hpe⟩
              intro c hc
              rw [← hpe] at hc
              exact pyLower_no_upper p c (mem_of_mem_pyTrim _ c hc)

/-- Support lemma: when the users field is not the keyword all, every user
of the compiled rule is free of upper-case ASCII letters. -/
theorem compile_explicit_users_no_upper (line : PyStr)
    (accounts : List PyStr) (fs : PyStr × PyStr × PyStr) (r : Rule)
    (hpf : parseFields line = some fs) (hcr : compileRule accounts fs = some r)
    (hne : fs.2.1 ≠ sAll) : ∀ u ∈ r.users, ¬ hasUpper u := by
  intro u hu
  unfold compileRule at hcr
  cases hb : pyAllowed fs.2.2 with
  | none =>
    rw [hb] at hcr
    cases hcr
  | some b =>
    rw [hb] at hcr
    simp only [Option.some.injEq] at hcr
    have husers : r.users = (pySplitWs fs.2.1).map pyTrim := by
      rw [← hcr]
      simp [hne]
    rw [husers] at hu
    rcases List.mem_map.mp hu with ⟨t, ht, rfl⟩
    rintro ⟨c, hc, hrange⟩
    have hct : c ∈ t := mem_of_mem_pyTrim t c hc
    have hcl : c ∈ fs.2.1 :=
      (splitBy_chars isWs fs.2.1 t (List.mem_filter.mp ht).1 c hct).1
    exact parseFields_no_upper line fs hpf c hcl hrange

/-- Claim C10: load_passwd_file stores a username exactly as written apart
from surrounding-whitespace stripping, while load_access_file lower-cases
every explicitly listed username; hence for an account name containing an
upper-case letter, no rule line that lists users explicitly can produce an
ACL entry under that exact username key. -/
theorem passwd_exact_case_acl_lowercased :
    (∀ (u k : PyStr), ':' ∉ u → ':' ∉ k →
       (u ++ ':' :: k).head? ≠ some '#' →
       parsePasswdLine (u ++ ':' :: k) = some (pyTrim u, pyTrim k))
    ∧ (∀ (line : PyStr) (accounts : List PyStr) (fs : PyStr × PyStr × PyStr)
         (r : Rule), parseFields line = some fs →
       compileRule accounts fs = some r → fs.2.1 ≠ sAll →
       ∀ u ∈ r.users, ¬ hasUpper u)
    ∧ (∀ (line : PyStr) (accounts : List PyStr) (fs : PyStr × PyStr × PyStr)
         (r : Rule) (U : PyStr), parseFields line = some fs →
       compileRule accounts fs = some r → fs.2.1 ≠ sAll → hasUpper U →
       ∀ acl : ACL, applyRule acl r U = acl U) := by
  refine ⟨?_, compile_explicit_users_no_upper, ?_⟩
  · intro u k hu hk hhead
    have hcolon : ':' ∈ u ++ ':' :: k :=
      List.mem_append_right u (List.mem_cons_self _ _)
    have htrim : ¬ (pyTrim (u ++ ':' :: k) = []) := by
      intro he
      have hmem := mem_pyTrim_of (u ++ ':' :: k) ':' hcolon (by decide)
      rw [he] at hmem
      cases hmem
    unfold parsePasswdLine
    rw [if_neg htrim, if_neg hhead]
    have hpu : ∀ c ∈ u, (decide (c = ':')) = false := by
      intro c hc
      simp only [decide_eq_false_iff_not]
      intro he
      exact hu (he ▸ hc)
    have hpk : ∀ c ∈ k, (decide (c = ':')) = false := by
      intro c hc
      simp only [decide_eq_false_iff_not]
      intro he
      exact hk (he ▸ hc)
    have hsplit : splitOnChar ':' (u ++ ':' :: k) = [u, k] := by
      unfold splitOnChar splitBy
      rw [splitByCore_append _ u (':' :: k) hpu]
      have hck : splitByCore (fun c => decide (c = ':')) (':' :: k) =
          ([], k :: []) := by
        simp only [splitByCore]
        rw [splitByCore_of_no_sep _ k hpk]
        simp
      rw [hck]
      simp
    rw [hsplit]
  · intro line accounts fs r U hpf hcr hne hUp acl
    apply applyRule_not_mem
    intro hmem
    exact compile_explicit_users_no_upper line accounts fs r hpf hcr hne
      U hmem hUp

/-- Witness for Claim C10 at the concrete username Bob. -/
theorem passwd_exact_case_acl_lowercased_witness :
    parsePasswdLine (sBobUp ++ ':' :: sCafe) =
      some (pyTrim sBobUp, pyTrim sCafe)
    ∧ applyRule (fun _ => ∅) (Rule.mk [sCheck] [sBob] true) sBobUp
      = (fun _ : PyStr => (∅ : Finset PyStr)) sBobUp := by
  constructor
  · exact passwd_exact_case_acl_lowercased.1 sBobUp sCafe (by decide)
      (by decide) (by decide)
  · exact passwd_exact_case_acl_lowercased.2.2 lnCheckBobUpAllow []
      (sCheck, sBob, sAllow) (Rule.mk [sCheck] [sBob] true) sBobUp
      (by decide) (by decide) (by decide) ⟨'B', by decide, by decide⟩
      (fun _ => ∅)

/-- Support lemma: a key outside the mapping's keys looks up to none. -/
theorem dictGet_eq_none_of_not_mem {α β : Type} [DecidableEq α]
    (m : List (α × β)) (k : α) (h : k ∉ m.map Prod.fst) :
    dictGet m k = none := by
  induction m with
  | nil => rfl
  | cons kv rest ih =>
    have hk : kv.1 ≠ k := fun he => h (by simp [← he])
    simp only [dictGet, hk, if_false]
    exact ih (fun hm => h (by simp [hm]))

/-- Support lemma: filtering only removes keys. -/
theorem keys_filter_subset {α β : Type} [DecidableEq α] (m : List (α × β))
    (p : α × β → Bool) (k : α) (h : k ∈ (m.filter p).map Prod.fst) :
    k ∈ m.map Prod.fst := by
  rcases List.mem_map.mp h with ⟨kv, hkv, rfl⟩
  exact List.mem_map.mpr ⟨kv, (List.mem_filter.mp hkv).1, rfl⟩

/-- Support lemma: one step of the sweep. -/
theorem sweepOnce_cons (now maxAge : Nat) (k1 v1 : PyStr)
    (rest : List (PyStr × PyStr)) :
    sweepOnce now maxAge ((k1, v1) :: rest) =
      if sweepKeep now maxAge v1 = true
      then (k1, v1) :: sweepOnce now maxAge rest
      else sweepOnce now maxAge rest := by
  simp [sweepOnce, List.filter_cons]

/-- Support lemma: the sweep decision on a decodable value. -/
theorem sweepKeep_of_decode (now maxAge : Nat) (v : PyStr) (r : Record)
    (hdec : decodeRecord v = some r) :
    sweepKeep now maxAge v =
      !decide (maxAge < now - max r.r_updated r.wl_updated) := by
  unfold sweepKeep
  rw [hdec]

/-- Claim C3: after one full eviction-sweep pass with threshold maxAge,
every stored record with now - max(reportUpdated, whitelistUpdated) >
maxAge has been deleted from the backend, and every record whose age is
within the threshold is still present with its stored value unchanged. -/
theorem sweep_eviction (now maxAge : Nat) (db : List (PyStr × PyStr))
    (k v : PyStr) (r : Record)
    (hnd : (db.map Prod.fst).Nodup)
    (hget : dictGet db k = some v)
    (hdec : decodeRecord v = some r) :
    (maxAge < now - max r.r_updated r.wl_updated →
       dictGet (sweepOnce now maxAge db) k = none)
    ∧ (now - max r.r_updated r.wl_updated ≤ maxAge →
       dictGet (sweepOnce now maxAge db) k = some v) := by
  induction db with
  | nil => cases hget
  | cons kv rest ih =>
    obtain ⟨k1, v1⟩ := kv
    rw [List.map_cons, List.nodup_cons] at hnd
    simp only [dictGet] at hget
    by_cases hk : k1 = k
    · subst hk
      rw [if_pos rfl] at hget
      injection hget with hv
      subst hv
      have hnone : dictGet (sweepOnce now maxAge rest) k1 = none := by
        apply dictGet_eq_none_of_not_mem
        intro hmem
        exact hnd.1 (keys_filter_subset rest _ k1 hmem)
      rw [sweepOnce_cons, sweepKeep_of_decode now maxAge v1 r hdec]
      constructor
      · intro hage
        rw [if_neg (by simp [hage])]
        exact hnone
      · intro hage
        rw [if_pos (by simp [Nat.not_lt.mpr hage])]
        simp [dictGet]
    · rw [if_neg hk] at hget
      have hih := ih hnd.2 hget
      rw [sweepOnce_cons]
      by_cases hkeep : sweepKeep now maxAge v1 = true
      · rw [if_pos hkeep]
        simp only [dictGet, hk, if_false]
        exact hih
      · rw [if_neg hkeep]
        exact hih

/-- Witness for Claim C3: a concrete stale record is deleted by the sweep. -/
theorem sweep_eviction_witness :
    dictGet (sweepOnce 1000 10
        [(sCafe, encodeRecord (Record.mk 1 2 10 50 20 60))]) sCafe = none :=
  (sweep_eviction 1000 10 [(sCafe, encodeRecord (Record.mk 1 2 10 50 20 60))]
      sCafe (encodeRecord (Record.mk 1 2 10 50 20 60))
      (Record.mk 1 2 10 50 20 60)
      (by decide) (by decide) (by decide)).1 (by decide)

/-- Claim C6 is refuted by the code: in load_accounts a line whose port
field does not parse as an integer is logged but NOT skipped - the except
branch around int(port) has no continue, so the entry is still added,
keyed by the unparsed string port. -/
theorem load_accounts_bad_port_entry_added :
    load_accounts (some [lnPortBug]) =
      [((sHostEx, PortV.str sBadPort),
        Account.mk sBob sDeadbeef sCafe)]
    ∧ pyInt? sBadPort = none := by
  constructor <;> decide
